import Mathlib

/-!
# Automatic booting (`src/usr/autoboot.c`)

A shallow embedding of the device cursor `next_netdev`, the single boot
attempt `netboot`, `close_all_netdevs` and the top-level `autoboot`,
followed by the properties established about them.

Conventions of the embedding:

* a `struct net_device *` is modelled by its identity (`NetDevice`), a
  possibly-NULL pointer by `Option NetDevice`;
* the list walked by `for_each_netdev` is a `List NetDevice` in registry
  order;
* the functions called by this file but defined elsewhere (`ifopen`,
  `ifstat`, `dhcp`, `route`, `dhcp_snprintf`, `imgfetch`, `imgload`,
  `imgexec`, `ifclose`, `strerror`) are fields of `Collab`, state
  transformers over an arbitrary world type `σ`;
* every call made by this file is logged as an `Event`, so that orderings
  of calls can be stated over the resulting trace;
* `autoboot` is embedded twice: `autoboot_with` walks a device list that
  stays the same for the whole run, `autoboot_live` follows the links of the
  list as they stand in the current world, so that a collaborator may
  register or unregister devices while `autoboot` runs. The second needs a
  bound on the number of loop iterations (`fuel`), since a list that keeps
  growing is never walked to its end.
-/

namespace Autoboot

/-! ## Data model -/

/-- Identity of a `struct net_device` (the pointer value compared with `==`). -/
abbrev NetDevice := Nat

/-- The variables read or written by `next_netdev`: the list walked by
`for_each_netdev` and the function-static `last_netdev`. -/
structure Globals where
  net_devices : List NetDevice
  last_netdev : Option NetDevice
deriving DecidableEq, Repr

/-- A `struct image`, of which this file only reads `name`. -/
structure Image where
  name : String
deriving DecidableEq, Repr

/-- The stages of one boot attempt, in the order `netboot` runs them. -/
inductive Stage where
  | Open
  | Configure
  | Route
  | Resolve
  | Fetch
  | Load
  | Execute
deriving DecidableEq, Repr

/-- Result of one attempt in the state machine of the design (§4.2): all
stages passed, or the stage that failed. `netboot` itself returns `void`. -/
inductive BootOutcome where
  | Success
  | Failure (stage : Stage)
deriving DecidableEq, Repr

/-- The calls made by the code of this file, with the value each reported. -/
inductive Event where
  | netboot_enter (netdev : NetDevice)
  | netboot_leave (netdev : NetDevice)
  | ifopen (netdev : NetDevice) (rc : Int)
  | ifstat (netdev : NetDevice)
  | dhcp (netdev : NetDevice) (rc : Int)
  | route
  | dhcp_snprintf (filename : String)
  | imgfetch (filename : String) (rc : Int)
  | imgload (image : Image) (rc : Int)
  | imgexec (image : Image) (rc : Int)
  | ifclose (netdev : NetDevice)
  | printf (format : String) (args : List String)
deriving DecidableEq, Repr

/-- The functions `autoboot.c` calls but does not define. Each acts on a
world of type `σ`; `bootfile` stands for
`dhcp_snprintf ( filename, sizeof ( filename ),
find_global_dhcp_option ( DHCP_BOOTFILE_NAME ) )` and yields the buffer
contents. -/
structure Collab (σ : Type) where
  ifopen : NetDevice → σ → Int × σ
  ifstat : NetDevice → σ → σ
  dhcp : NetDevice → σ → Int × σ
  route : σ → σ
  bootfile : σ → String × σ
  imgfetch : String → σ → (Int × Image) × σ
  imgload : Image → σ → Int × σ
  imgexec : Image → σ → Int × σ
  ifclose : NetDevice → σ → σ
  strerror : Int → String

/-! ## `next_netdev` -/

/-- The `for_each_netdev` loop of `next_netdev` over the remaining devices,
with the current value of `last_netdev`; yields the value returned and the
final `last_netdev`. Leaving the loop runs `last_netdev = NULL; return NULL`. -/
def next_netdev_scan : List NetDevice → Option NetDevice → Option NetDevice × Option NetDevice
  | [], _ => (none, none)
  | netdev :: _, none => (some netdev, some netdev)
  | netdev :: rest, some last =>
      if last = netdev then next_netdev_scan rest none
      else next_netdev_scan rest (some last)

/-- Get the next network device to try. -/
def next_netdev (g : Globals) : Option NetDevice × Globals :=
  let r := next_netdev_scan g.net_devices g.last_netdev
  (r.1, { g with last_netdev := r.2 })

/-- Value of `last_netdev` before call number `k` (counting from 0), when call
number `i` observes the registry `regs i` and `last_netdev` starts as `s0`. -/
def cursor_state (regs : Nat → List NetDevice) (s0 : Option NetDevice) : Nat → Option NetDevice
  | 0 => s0
  | k + 1 => (next_netdev ⟨regs k, cursor_state regs s0 k⟩).2.last_netdev

/-- Value returned by call number `k` (counting from 0). -/
def call_result (regs : Nat → List NetDevice) (s0 : Option NetDevice) (k : Nat) : Option NetDevice :=
  (next_netdev ⟨regs k, cursor_state regs s0 k⟩).1

/-- Values returned by the first `n` calls on a registry that stays `R`. -/
def call_results (R : List NetDevice) (s0 : Option NetDevice) (n : Nat) : List (Option NetDevice) :=
  (List.range n).map (call_result (fun _ => R) s0)

/-! ## `netboot` -/

/-- Boot from a network device. The function returns `void`: the result is
the calls made and the world left behind. -/
def netboot {σ : Type} (c : Collab σ) (netdev : NetDevice) (w : σ) : List Event × σ :=
  let r1 := c.ifopen netdev w
  let t1 := [Event.ifopen netdev r1.1]
  if r1.1 ≠ 0 then (t1, r1.2)
  else
    let w2 := c.ifstat netdev r1.2
    let r3 := c.dhcp netdev w2
    let t3 := t1 ++ [Event.ifstat netdev, Event.dhcp netdev r3.1]
    if r3.1 ≠ 0 then (t3, r3.2)
    else
      let w4 := c.route r3.2
      let r5 := c.bootfile w4
      let filename := r5.1
      let t5 := t3 ++ [Event.route, Event.dhcp_snprintf filename]
      if filename = "" then
        (t5 ++ [Event.printf "No boot filename\n" []], r5.2)
      else
        let r6 := c.imgfetch filename r5.2
        let rc6 := r6.1.1
        let image := r6.1.2
        let t6 := t5 ++ [Event.printf "Booting \"%s\"\n" [filename],
                         Event.imgfetch filename rc6]
        if rc6 ≠ 0 then
          (t6 ++ [Event.printf "Could not retrieve %s: %s\n" [filename, c.strerror rc6]],
            r6.2)
        else
          let r7 := c.imgload image r6.2
          let t7 := t6 ++ [Event.imgload image r7.1]
          if r7.1 ≠ 0 then
            (t7 ++ [Event.printf "Could not load %s: %s\n" [image.name, c.strerror r7.1]],
              r7.2)
          else
            let r8 := c.imgexec image r7.2
            let t8 := t7 ++ [Event.imgexec image r8.1]
            if r8.1 ≠ 0 then
              (t8 ++ [Event.printf "Could not execute %s: %s\n" [image.name, c.strerror r8.1]],
                r8.2)
            else (t8, r8.2)

/-! ## `close_all_netdevs` and `autoboot` -/

/-- Close all open net devices: `ifclose` on each device of the list walked,
for a device list that stays the same during the walk. -/
def close_all_netdevs {σ : Type} (c : Collab σ) : List NetDevice → σ → List Event × σ
  | [], w => ([], w)
  | netdev :: rest, w =>
      let r := close_all_netdevs c rest (c.ifclose netdev w)
      (Event.ifclose netdev :: r.1, r.2)

/-- A call `netboot ( netdev )` made by `autoboot`, logged between an enter
and a leave marker. -/
def call_netboot {σ : Type} (c : Collab σ) (netdev : NetDevice) (w : σ) : List Event × σ :=
  let r := netboot c netdev w
  (Event.netboot_enter netdev :: r.1 ++ [Event.netboot_leave netdev], r.2)

/-- The `for_each_netdev` loop of `autoboot` over the remaining devices, for
a device list that stays the same during the run; `net_devices` is the whole
registry, walked again by each `close_all_netdevs`. -/
def autoboot_loop {σ : Type} (c : Collab σ) (net_devices : List NetDevice)
    (boot_netdev : Option NetDevice) : List NetDevice → σ → List Event × σ
  | [], w => ([], w)
  | netdev :: rest, w =>
      if some netdev = boot_netdev then autoboot_loop c net_devices boot_netdev rest w
      else
        let r1 := close_all_netdevs c net_devices w
        let r2 := call_netboot c netdev r1.2
        let r3 := autoboot_loop c net_devices boot_netdev rest r2.2
        (r1.1 ++ r2.1 ++ r3.1, r3.2)

/-- Body of `autoboot` with the result of `find_boot_netdev ()` as the
argument `boot_netdev`. -/
def autoboot_with {σ : Type} (c : Collab σ) (net_devices : List NetDevice)
    (boot_netdev : Option NetDevice) (w : σ) : List Event × σ :=
  let r0 := close_all_netdevs c net_devices w
  let r1 := match boot_netdev with
    | some b => call_netboot c b r0.2
    | none => ([], r0.2)
  let r2 := autoboot_loop c net_devices boot_netdev net_devices r1.2
  (r0.1 ++ r1.1 ++ r2.1 ++ [Event.printf "No more network devices\n" []], r2.2)

/-- Identify the boot network device. -/
def find_boot_netdev : Option NetDevice := none

/-- Boot the system. -/
def autoboot {σ : Type} (c : Collab σ) (net_devices : List NetDevice) (w : σ) : List Event × σ :=
  autoboot_with c net_devices find_boot_netdev w

/-! ## `close_all_netdevs` and `autoboot` on a device list that may change -/

/-- The two reads of the device list made by `for_each_netdev`, a macro of
`gpxe/netdevice.h` that is not part of this file: `first w` is the entry
that follows the list head in the world `w`, `next netdev w` the entry that
follows `netdev`; each is none when what follows is the list head itself. -/
structure ListReads (σ : Type) where
  first : σ → Option NetDevice
  next : NetDevice → σ → Option NetDevice

/-- The loop of `close_all_netdevs` with the loop variable at `cur`, for at
most `fuel` iterations. The result is the calls made, the world left and
whether the end of the list was reached. -/
def close_all_netdevs_live {σ : Type} (l : ListReads σ) (c : Collab σ) :
    Nat → Option NetDevice → σ → List Event × σ × Bool
  | _, none, w => ([], w, true)
  | 0, some _, w => ([], w, false)
  | fuel + 1, some netdev, w =>
      let w1 := c.ifclose netdev w
      let r := close_all_netdevs_live l c fuel (l.next netdev w1) w1
      (Event.ifclose netdev :: r.1, r.2.1, r.2.2)

/-- The `for_each_netdev` loop of `autoboot` with the loop variable at `cur`,
for at most `fuel` iterations, each `close_all_netdevs` pass being allowed
`inner` iterations. A pass that does not reach the end of the list within
its bound ends the run there. -/
def autoboot_loop_live {σ : Type} (l : ListReads σ) (c : Collab σ)
    (boot_netdev : Option NetDevice) (inner : Nat) :
    Nat → Option NetDevice → σ → List Event × σ × Bool
  | _, none, w => ([], w, true)
  | 0, some _, w => ([], w, false)
  | fuel + 1, some netdev, w =>
      if some netdev = boot_netdev then
        autoboot_loop_live l c boot_netdev inner fuel (l.next netdev w) w
      else
        let r1 := close_all_netdevs_live l c inner (l.first w) w
        if r1.2.2 then
          let r2 := call_netboot c netdev r1.2.1
          let r3 := autoboot_loop_live l c boot_netdev inner fuel (l.next netdev r2.2) r2.2
          (r1.1 ++ r2.1 ++ r3.1, r3.2.1, r3.2.2)
        else (r1.1, r1.2.1, false)

/-- Body of `autoboot` with the result of `find_boot_netdev ()` as the
argument `boot_netdev`, every loop being allowed `fuel` iterations. The last
component tells whether the run reached the end of `autoboot`. -/
def autoboot_live {σ : Type} (l : ListReads σ) (c : Collab σ)
    (boot_netdev : Option NetDevice) (fuel : Nat) (w : σ) : List Event × σ × Bool :=
  let r0 := close_all_netdevs_live l c fuel (l.first w) w
  if r0.2.2 then
    let r1 := match boot_netdev with
      | some b => call_netboot c b r0.2.1
      | none => ([], r0.2.1)
    let r2 := autoboot_loop_live l c boot_netdev fuel fuel (l.first r1.2) r1.2
    if r2.2.2 then
      (r0.1 ++ r1.1 ++ r2.1 ++ [Event.printf "No more network devices\n" []], r2.2.1, true)
    else (r0.1 ++ r1.1 ++ r2.1, r2.2.1, false)
  else (r0.1, r0.2.1, false)

/-! ## Auxiliary definitions used in the statements -/

/-- A registry that gains one device at its tail before every call: call
number `k` observes the devices `0, 1, ..., k`. -/
def growing_registry (k : Nat) : List NetDevice := List.range (k + 1)

/-- The functions `netboot` calls, `printf` apart. -/
inductive Callee where
  | ifopen
  | ifstat
  | dhcp
  | route
  | dhcp_snprintf
  | imgfetch
  | imgload
  | imgexec
deriving DecidableEq, Repr

/-- The function an event is a call of, for the calls `netboot` makes. -/
def callee_of : Event → Option Callee
  | Event.ifopen _ _ => some Callee.ifopen
  | Event.ifstat _ => some Callee.ifstat
  | Event.dhcp _ _ => some Callee.dhcp
  | Event.route => some Callee.route
  | Event.dhcp_snprintf _ => some Callee.dhcp_snprintf
  | Event.imgfetch _ _ => some Callee.imgfetch
  | Event.imgload _ _ => some Callee.imgload
  | Event.imgexec _ _ => some Callee.imgexec
  | _ => none

/-- The order in which the body of `netboot` lists its calls. -/
def netboot_call_order : List Callee :=
  [Callee.ifopen, Callee.ifstat, Callee.dhcp, Callee.route, Callee.dhcp_snprintf,
   Callee.imgfetch, Callee.imgload, Callee.imgexec]

/-- The stage whose result a call decides: what `netboot` tests after it. -/
def stage_of : Event → Option Stage
  | Event.ifopen _ _ => some Stage.Open
  | Event.dhcp _ _ => some Stage.Configure
  | Event.route => some Stage.Route
  | Event.dhcp_snprintf _ => some Stage.Resolve
  | Event.imgfetch _ _ => some Stage.Fetch
  | Event.imgload _ _ => some Stage.Load
  | Event.imgexec _ _ => some Stage.Execute
  | _ => none

/-- A call reported failure: a non-zero `rc`, or an empty boot filename. -/
def event_failed : Event → Bool
  | Event.ifopen _ rc => decide (rc ≠ 0)
  | Event.dhcp _ rc => decide (rc ≠ 0)
  | Event.dhcp_snprintf filename => decide (filename = "")
  | Event.imgfetch _ rc => decide (rc ≠ 0)
  | Event.imgload _ rc => decide (rc ≠ 0)
  | Event.imgexec _ rc => decide (rc ≠ 0)
  | _ => false

/-- The device an event names, if any. -/
def event_netdev : Event → Option NetDevice
  | Event.netboot_enter d => some d
  | Event.netboot_leave d => some d
  | Event.ifopen d _ => some d
  | Event.ifstat d => some d
  | Event.dhcp d _ => some d
  | Event.ifclose d => some d
  | _ => none

/-- Executable check that nothing is called after a call that failed. -/
def stops_after_failure : List Event → Bool
  | [] => true
  | e :: rest =>
      if event_failed e then rest.all (fun e2 => (callee_of e2).isNone)
      else stops_after_failure rest

/-- The event is the start of a `netboot` call. -/
def is_enter : Event → Bool
  | Event.netboot_enter _ => true
  | _ => false

/-- The event is the return of a `netboot` call. -/
def is_leave : Event → Bool
  | Event.netboot_leave _ => true
  | _ => false

/-- The event is an `ifclose` call. -/
def is_close : Event → Bool
  | Event.ifclose _ => true
  | _ => false

/-- The event is an `imgexec` call. -/
def is_exec : Event → Bool
  | Event.imgexec _ _ => true
  | _ => false

/-- The devices on which a trace calls `netboot`, in order. -/
def attempts (t : List Event) : List NetDevice :=
  t.filterMap (fun e => match e with
    | Event.netboot_enter d => some d
    | _ => none)

/-- In the trace `t`, logged after the events `hist`, every `imgexec` call
comes after the start of some `netboot` call. -/
def ExecAfterEnter (hist t : List Event) : Prop :=
  ∀ pre image rc post, t = pre ++ Event.imgexec image rc :: post →
    attempts (hist ++ pre) ≠ []

/-- The final report of `autoboot`. -/
def exhausted : Event := Event.printf "No more network devices\n" []

/-- The calls of one `close_all_netdevs` pass over the registry `R`. -/
def close_events (R : List NetDevice) : List Event := R.map Event.ifclose

/-- No `netboot` call starts after an `imgexec` that reported success. By
`netboot`, `imgexec` is reached only when `ifopen`, `dhcp`, `imgfetch` and
`imgload` reported success and the boot filename was not empty, so an
`imgexec` reporting 0 marks an attempt in which every stage succeeded. -/
def no_attempt_after_success (t : List Event) : Prop :=
  ∀ pre image post, t = pre ++ Event.imgexec image 0 :: post → attempts post = []

/-- Collaborators that succeed at everything, on a world with no state. -/
def always_ok : Collab Unit where
  ifopen := fun _ w => (0, w)
  ifstat := fun _ w => w
  dhcp := fun _ w => (0, w)
  route := fun w => w
  bootfile := fun w => ("pxelinux.0", w)
  imgfetch := fun filename w => ((0, ⟨filename⟩), w)
  imgload := fun _ w => (0, w)
  imgexec := fun _ w => (0, w)
  ifclose := fun _ w => w
  strerror := fun _ => "error"

/-- State of an attempt between two stages of the state machine of the
design (§4.2): the world, the filename resolved, the image fetched and the
collaborator calls made so far. -/
structure AttemptState (σ : Type) where
  world : σ
  filename : String
  image : Image
  calls : List Event

/-- One stage of the state machine of the design (§4.2), written from the
stage contracts and not from `netboot`: the calls of the stage, and whether
the stage passed. -/
def run_stage {σ : Type} (c : Collab σ) (netdev : NetDevice) :
    Stage → AttemptState σ → Bool × AttemptState σ
  | Stage.Open, s =>
      let r := c.ifopen netdev s.world
      if r.1 = 0 then
        (true, { s with world := c.ifstat netdev r.2,
                        calls := s.calls ++ [Event.ifopen netdev r.1, Event.ifstat netdev] })
      else (false, { s with world := r.2, calls := s.calls ++ [Event.ifopen netdev r.1] })
  | Stage.Configure, s =>
      let r := c.dhcp netdev s.world
      (decide (r.1 = 0), { s with world := r.2, calls := s.calls ++ [Event.dhcp netdev r.1] })
  | Stage.Route, s =>
      (true, { s with world := c.route s.world, calls := s.calls ++ [Event.route] })
  | Stage.Resolve, s =>
      let r := c.bootfile s.world
      (decide (r.1 ≠ ""), { s with world := r.2, filename := r.1,
                                   calls := s.calls ++ [Event.dhcp_snprintf r.1] })
  | Stage.Fetch, s =>
      let r := c.imgfetch s.filename s.world
      (decide (r.1.1 = 0), { s with world := r.2, image := r.1.2,
                                    calls := s.calls ++ [Event.imgfetch s.filename r.1.1] })
  | Stage.Load, s =>
      let r := c.imgload s.image s.world
      (decide (r.1 = 0), { s with world := r.2,
                                  calls := s.calls ++ [Event.imgload s.image r.1] })
  | Stage.Execute, s =>
      let r := c.imgexec s.image s.world
      (decide (r.1 = 0), { s with world := r.2,
                                  calls := s.calls ++ [Event.imgexec s.image r.1] })

/-- The linear state machine of the design (§4.2): the stages are run in the
order given, each once, and the first one that fails ends the attempt with
`Failure` of that stage. -/
def run_stages {σ : Type} (c : Collab σ) (netdev : NetDevice) :
    List Stage → AttemptState σ → BootOutcome × AttemptState σ
  | [], s => (BootOutcome.Success, s)
  | stage :: rest, s =>
      let r := run_stage c netdev stage s
      if r.1 then run_stages c netdev rest r.2 else (BootOutcome.Failure stage, r.2)

/-- The order of the stages in the design (§4.2). -/
def stage_order : List Stage :=
  [Stage.Open, Stage.Configure, Stage.Route, Stage.Resolve, Stage.Fetch, Stage.Load,
   Stage.Execute]

/-- One attempt of the state machine of the design on `netdev`, from the
world `w`. -/
def boot_attempt {σ : Type} (c : Collab σ) (netdev : NetDevice) (w : σ) :
    BootOutcome × AttemptState σ :=
  run_stages c netdev stage_order ⟨w, "", ⟨""⟩, []⟩

/-- The world left by the call an event logs, made in the world `w`. -/
def apply_event {σ : Type} (c : Collab σ) (w : σ) : Event → σ
  | Event.ifopen netdev _ => (c.ifopen netdev w).2
  | Event.ifstat netdev => c.ifstat netdev w
  | Event.dhcp netdev _ => (c.dhcp netdev w).2
  | Event.route => c.route w
  | Event.dhcp_snprintf _ => (c.bootfile w).2
  | Event.imgfetch filename _ => (c.imgfetch filename w).2
  | Event.imgload image _ => (c.imgload image w).2
  | Event.imgexec image _ => (c.imgexec image w).2
  | Event.ifclose netdev => c.ifclose netdev w
  | _ => w

/-- The world left by the calls of a trace, made one after the other from
the world `w`. -/
def replay {σ : Type} (c : Collab σ) (t : List Event) (w : σ) : σ :=
  t.foldl (apply_event c) w

/-- The devices `ds` are those of one complete walk of the device list by
`for_each_netdev` with `ifclose` as the body, the loop variable being at
`cur` in the world `w`: each device is the entry that follows its
predecessor in the world left by the `ifclose` on that predecessor, and
after the last one the walk is back at the list head. -/
def complete_pass {σ : Type} (l : ListReads σ) (c : Collab σ) :
    Option NetDevice → σ → List NetDevice → Bool
  | none, _, [] => true
  | some d, w, d2 :: ds =>
      decide (d2 = d) && complete_pass l c (l.next d (c.ifclose d w)) (c.ifclose d w) ds
  | _, _, _ => false

/-- The devices `ds` are the entries of the device list as it stands in the
world `w`, from `cur` to the end of the list. -/
def list_walk {σ : Type} (l : ListReads σ) : Option NetDevice → σ → List NetDevice → Bool
  | none, _, [] => true
  | some d, w, d2 :: ds => decide (d2 = d) && list_walk l (l.next d w) w ds
  | _, _, _ => false

/-- In the trace `t`, logged after the events `hist` of a run that started
in the world `w0`, every `netboot` call comes right after a complete walk of
the device list with `ifclose`, and its calls are those of `netboot` in the
world left by that walk, followed by its return. -/
def LiveClean {σ : Type} (l : ListReads σ) (c : Collab σ) (w0 : σ)
    (hist t : List Event) : Prop :=
  ∀ pre d post, t = pre ++ Event.netboot_enter d :: post →
    ∃ pre0 ds, hist ++ pre = pre0 ++ ds.map Event.ifclose
      ∧ complete_pass l c (l.first (replay c pre0 w0)) (replay c pre0 w0) ds = true
      ∧ ∃ rest, post = (netboot c d (replay c (hist ++ pre) w0)).1
                        ++ Event.netboot_leave d :: rest

/-- The entry that follows `d` in the list `R`. -/
def entry_after (d : NetDevice) : List NetDevice → Option NetDevice
  | [] => none
  | x :: rest => if x = d then rest.head? else entry_after d rest

/-- The reads of a device list that is itself the world. -/
def world_reads : ListReads (List NetDevice) where
  first := fun w => w.head?
  next := fun d w => entry_after d w

/-- The reads of a device list `R` that no call changes. -/
def fixed_reads {σ : Type} (R : List NetDevice) : ListReads σ where
  first := fun _ => R.head?
  next := fun d _ => entry_after d R

/-- Collaborators on a world that is the device list: `ifopen` fails on
every device, and on device 1 it registers device 2 at the tail of the list
when it is not there yet. -/
def hotplug_down : Collab (List NetDevice) where
  ifopen := fun d w => (1, if d = 1 ∧ 2 ∉ w then w ++ [2] else w)
  ifstat := fun _ w => w
  dhcp := fun _ w => (0, w)
  route := fun w => w
  bootfile := fun w => ("pxelinux.0", w)
  imgfetch := fun filename w => ((0, ⟨filename⟩), w)
  imgload := fun _ w => (0, w)
  imgexec := fun _ w => (0, w)
  ifclose := fun _ w => w
  strerror := fun _ => "error"

/-! ## Lemmas on the cursor -/

theorem scan_none (R : List NetDevice) :
    next_netdev_scan R none = (R.head?, R.head?) := by
  cases R <;> rfl

theorem scan_absent (R : List NetDevice) (d : NetDevice) (h : d ∉ R) :
    next_netdev_scan R (some d) = (none, none) := by
  induction R with
  | nil => rfl
  | cons x xs ih =>
    have hx : d ≠ x := fun e => h (by simp [e])
    have hxs : d ∉ xs := fun m => h (List.mem_cons_of_mem _ m)
    simp [next_netdev_scan, hx, ih hxs]

theorem scan_skip (pre rest : List NetDevice) (d : NetDevice) (h : d ∉ pre) :
    next_netdev_scan (pre ++ rest) (some d) = next_netdev_scan rest (some d) := by
  induction pre with
  | nil => rfl
  | cons x xs ih =>
    have hx : d ≠ x := fun e => h (by simp [e])
    have hxs : d ∉ xs := fun m => h (List.mem_cons_of_mem _ m)
    simp [next_netdev_scan, hx, ih hxs]

theorem scan_found (pre post : List NetDevice) (d : NetDevice) (h : d ∉ pre) :
    next_netdev_scan (pre ++ d :: post) (some d) = (post.head?, post.head?) := by
  rw [scan_skip pre _ d h]
  simp [next_netdev_scan, scan_none]

theorem scan_fst_eq_snd (R : List NetDevice) (s : Option NetDevice) :
    (next_netdev_scan R s).2 = (next_netdev_scan R s).1 := by
  induction R generalizing s with
  | nil => rfl
  | cons x xs ih =>
    cases s with
    | none => rfl
    | some l =>
      by_cases e : l = x
      · simp [next_netdev_scan, e, ih]
      · simp [next_netdev_scan, e, ih]

theorem scan_mem (R : List NetDevice) (s : Option NetDevice) (x : NetDevice)
    (h : (next_netdev_scan R s).1 = some x) : x ∈ R := by
  induction R generalizing s with
  | nil => simp [next_netdev_scan] at h
  | cons y ys ih =>
    cases s with
    | none =>
      simp [next_netdev_scan] at h
      simp [h]
    | some l =>
      by_cases e : l = y
      · simp [next_netdev_scan, e] at h
        exact List.mem_cons_of_mem _ (ih _ h)
      · simp [next_netdev_scan, e] at h
        exact List.mem_cons_of_mem _ (ih _ h)

theorem cursor_state_shift (regs : Nat → List NetDevice) (s : Option NetDevice) (k : Nat) :
    cursor_state regs s (k + 1)
      = cursor_state (fun i => regs (i + 1)) (next_netdev_scan (regs 0) s).2 k := by
  induction k with
  | zero => rfl
  | succ n ih =>
    rw [cursor_state, ih]
    rfl

theorem cursor_state_add (regs : Nat → List NetDevice) (s : Option NetDevice) (m j : Nat) :
    cursor_state regs s (m + j)
      = cursor_state (fun i => regs (m + i)) (cursor_state regs s m) j := by
  induction j with
  | zero => rfl
  | succ n ih =>
    show cursor_state regs s (m + n + 1) = _
    rw [cursor_state, ih]
    rfl

theorem call_result_add (regs : Nat → List NetDevice) (s : Option NetDevice) (m j : Nat) :
    call_result regs s (m + j)
      = call_result (fun i => regs (m + i)) (cursor_state regs s m) j := by
  unfold call_result
  rw [cursor_state_add]

theorem cursor_state_succ_eq_result (regs : Nat → List NetDevice) (s : Option NetDevice)
    (k : Nat) : cursor_state regs s (k + 1) = call_result regs s k := by
  unfold call_result
  rw [cursor_state]
  exact scan_fst_eq_snd _ _

theorem call_results_succ (R : List NetDevice) (s : Option NetDevice) (n : Nat) :
    call_results R s (n + 1)
      = (next_netdev_scan R s).1 :: call_results R (next_netdev_scan R s).2 n := by
  unfold call_results
  rw [List.range_succ_eq_map, List.map_cons, List.map_map]
  congr 1
  apply List.map_congr_left
  intro k _
  show call_result (fun _ => R) s (k + 1) = _
  unfold call_result
  rw [cursor_state_shift]

/-- From a cursor on `d`, the calls on `pre ++ d :: post` yield `post`, then none. -/
theorem call_results_from (pre post : List NetDevice) (d : NetDevice)
    (h : (pre ++ d :: post).Nodup) :
    call_results (pre ++ d :: post) (some d) (post.length + 1) = post.map some ++ [none] := by
  induction post generalizing pre d with
  | nil =>
    have hd : d ∉ pre := by
      intro m
      have := List.nodup_append.mp h
      exact this.2.2 m (by simp)
    rw [call_results_succ, scan_found pre [] d hd]
    rfl
  | cons x xs ih =>
    have hd : d ∉ pre := by
      intro m
      have := List.nodup_append.mp h
      exact this.2.2 m (by simp)
    rw [List.length_cons, call_results_succ, scan_found pre (x :: xs) d hd]
    have e : pre ++ d :: x :: xs = (pre ++ [d]) ++ x :: xs := by simp
    simp only [List.head?_cons, List.map_cons, List.cons_append]
    rw [e] at h ⊢
    rw [ih (pre ++ [d]) x h]

theorem cursor_state_const_succ (R : List NetDevice) (s : Option NetDevice) (k : Nat) :
    cursor_state (fun _ => R) s (k + 1)
      = cursor_state (fun _ => R) (next_netdev_scan R s).2 k :=
  cursor_state_shift (fun _ => R) s k

theorem call_result_const_succ (R : List NetDevice) (s : Option NetDevice) (k : Nat) :
    call_result (fun _ => R) s (k + 1)
      = call_result (fun _ => R) (next_netdev_scan R s).2 k := by
  unfold call_result
  rw [cursor_state_const_succ]

theorem cursor_state_from (pre post : List NetDevice) (d : NetDevice)
    (h : (pre ++ d :: post).Nodup) :
    cursor_state (fun _ => pre ++ d :: post) (some d) (post.length + 1) = none := by
  induction post generalizing pre d with
  | nil =>
    have hd : d ∉ pre := fun m => (List.nodup_append.mp h).2.2 m (by simp)
    rw [cursor_state_const_succ, scan_found pre [] d hd]
    rfl
  | cons x xs ih =>
    have hd : d ∉ pre := fun m => (List.nodup_append.mp h).2.2 m (by simp)
    rw [List.length_cons, cursor_state_const_succ, scan_found pre (x :: xs) d hd]
    have e : pre ++ d :: x :: xs = (pre ++ [d]) ++ x :: xs := by simp
    simp only [List.head?_cons]
    rw [e] at h ⊢
    exact ih (pre ++ [d]) x h

theorem call_result_from (pre post : List NetDevice) (d : NetDevice)
    (h : (pre ++ d :: post).Nodup) :
    call_result (fun _ => pre ++ d :: post) (some d) post.length = none := by
  rw [← cursor_state_succ_eq_result]
  exact cursor_state_from pre post d h

theorem call_results_add (R : List NetDevice) (s : Option NetDevice) (a b : Nat) :
    call_results R s (a + b)
      = call_results R s a ++ call_results R (cursor_state (fun _ => R) s a) b := by
  unfold call_results
  rw [List.range_add, List.map_append, List.map_map]
  congr 1
  apply List.map_congr_left
  intro k _
  exact call_result_add (fun _ => R) s a k

theorem call_result_empty (s : Option NetDevice) (k : Nat) :
    call_result (fun _ => []) s k = none := rfl

/-- On a registry that stays `R` (devices pairwise distinct) the cursor
returns none within `R.length + 1` calls, whatever it held at the start. -/
theorem stable_reaches_none (R : List NetDevice) (h : R.Nodup) (s : Option NetDevice) :
    ∃ j, j ≤ R.length ∧ call_result (fun _ => R) s j = none := by
  cases s with
  | none =>
    cases R with
    | nil => exact ⟨0, le_refl _, rfl⟩
    | cons x post =>
      refine ⟨post.length + 1, le_refl _, ?_⟩
      rw [call_result_const_succ, scan_none]
      exact call_result_from [] post x h
  | some d =>
    by_cases m : d ∈ R
    · obtain ⟨pre, post, rfl⟩ := List.append_of_mem m
      refine ⟨post.length, by simp; omega, ?_⟩
      exact call_result_from pre post d h
    · refine ⟨0, Nat.zero_le _, ?_⟩
      show (next_netdev_scan R (some d)).1 = none
      rw [scan_absent R d m]

theorem growing_state (k : Nat) : cursor_state growing_registry none (k + 1) = some k := by
  induction k with
  | zero => rfl
  | succ n ih =>
    rw [cursor_state, ih]
    show (next_netdev_scan (List.range (n + 1 + 1)) (some n)).2 = some (n + 1)
    have e : List.range (n + 1 + 1) = List.range n ++ n :: [n + 1] := by
      simp [List.range_succ]
    rw [e, scan_found (List.range n) [n + 1] n (by simp)]
    rfl

theorem growing_result (k : Nat) : call_result growing_registry none k = some k := by
  rw [← cursor_state_succ_eq_result]
  exact growing_state k

/-! ## Properties of `next_netdev` -/

/-- C1: on a registry `R` of `N` pairwise-distinct devices that stays the
same between calls, starting with `last_netdev = NULL`, the first `N` calls of
`next_netdev` return the members of `R` in registry order (so each exactly
once), call `N + 1` returns none and call `N + 2` returns the first member
again; on the empty registry every call returns none. -/
theorem next_netdev_full_cycle (R : List NetDevice) (h : R.Nodup) :
    call_results R none (R.length + 2) = R.map some ++ [none, R.head?]
      ∧ (R = [] → ∀ k, call_result (fun _ => R) none k = none) := by
  constructor
  · cases R with
    | nil => rfl
    | cons x post =>
      have e : (x :: post).length + 2 = 1 + ((post.length + 1) + 1) := by
        simp only [List.length_cons]; omega
      rw [e, call_results_add, call_results_add]
      have h1 : call_results (x :: post) none 1 = [some x] := rfl
      have h2 : cursor_state (fun _ => x :: post) none 1 = some x := rfl
      have h3 := call_results_from [] post x h
      have h4 := cursor_state_from [] post x h
      rw [List.nil_append] at h3 h4
      rw [h1, h2, h3, h4, h1]
      simp
  · intro e k
    subst e
    rfl

theorem next_netdev_full_cycle_witness :
    call_results [7, 3, 5] none 5 = [some 7, some 3, some 5, none, some 7] :=
  (next_netdev_full_cycle [7, 3, 5] (by decide)).1

/-- C2: when `last_netdev` holds a device that is not a member of the
registry (the empty registry included), `next_netdev` returns none and leaves
`last_netdev` NULL, so the following call on a non-empty registry returns
its first member. -/
theorem next_netdev_removed_device (R : List NetDevice) (d : NetDevice) (h : d ∉ R) :
    next_netdev ⟨R, some d⟩ = (none, ⟨R, none⟩)
      ∧ ∀ (x : NetDevice) (R2 : List NetDevice),
          (next_netdev ⟨x :: R2, (next_netdev ⟨R, some d⟩).2.last_netdev⟩).1 = some x := by
  have e : next_netdev ⟨R, some d⟩ = (none, ⟨R, none⟩) := by
    simp [next_netdev, scan_absent R d h]
  refine ⟨e, ?_⟩
  intro x R2
  rw [e]
  rfl

theorem next_netdev_removed_device_witness :
    next_netdev ⟨[1, 2], some 9⟩ = (none, ⟨[1, 2], none⟩)
      ∧ ∀ (x : NetDevice) (R2 : List NetDevice),
          (next_netdev ⟨x :: R2, (next_netdev ⟨[1, 2], some 9⟩).2.last_netdev⟩).1 = some x :=
  next_netdev_removed_device [1, 2] 9 (by decide)

/-- C8 as stated fails: when a device is registered at the tail before every
call, call number `k` returns device `k` and no call ever returns none. -/
theorem next_netdev_need_not_reach_none :
    ¬ ∀ regs : Nat → List NetDevice, ∃ k, call_result regs none k = none := by
  intro h
  obtain ⟨k, hk⟩ := h growing_registry
  rw [growing_result] at hk
  exact Option.noConfusion hk

/-- C8 amended: when the registry stops changing after finitely many calls
(from call `m` on it is a fixed `R0` of pairwise-distinct devices), some call
returns none, at the latest `R0.length` calls after call `m`. -/
theorem next_netdev_reaches_none_when_stable (regs : Nat → List NetDevice) (m : Nat)
    (R0 : List NetDevice) (hnd : R0.Nodup) (hst : ∀ k, m ≤ k → regs k = R0) :
    ∃ k, k ≤ m + R0.length ∧ call_result regs none k = none := by
  obtain ⟨j, hj, hr⟩ := stable_reaches_none R0 hnd (cursor_state regs none m)
  refine ⟨m + j, by omega, ?_⟩
  rw [call_result_add]
  have e : (fun i => regs (m + i)) = fun _ => R0 := by
    funext i
    exact hst (m + i) (by omega)
  rw [e]
  exact hr

theorem next_netdev_reaches_none_when_stable_witness :
    ∃ k, k ≤ 2 + [4, 5].length
      ∧ call_result (fun i => if i < 2 then growing_registry i else [4, 5]) none k = none :=
  next_netdev_reaches_none_when_stable (fun i => if i < 2 then growing_registry i else [4, 5])
    2 [4, 5] (by decide) (fun k hk => by simp [Nat.not_lt.mpr hk])

/-- C9: with `last_netdev` holding `d` and a registry `pre ++ [d] ++ post` of
pairwise-distinct devices, the successive calls return the devices of `post`
in order and then none; the devices of `pre` are not returned. -/
theorem next_netdev_resumes_after (pre post : List NetDevice) (d : NetDevice)
    (h : (pre ++ [d] ++ post).Nodup) :
    call_results (pre ++ [d] ++ post) (some d) (post.length + 1) = post.map some ++ [none] := by
  have e : pre ++ [d] ++ post = pre ++ d :: post := by simp
  rw [e] at h ⊢
  exact call_results_from pre post d h

theorem next_netdev_resumes_after_witness :
    call_results ([1, 2] ++ [3] ++ [8, 4]) (some 3) 3 = [some 8, some 4, none] :=
  next_netdev_resumes_after [1, 2] [8, 4] 3 (by decide)

/-- C10: after any call of `next_netdev`, `last_netdev` equals the value
returned (so it is NULL exactly when none is returned), a device returned is
a member of the registry the call observed, and nothing but `last_netdev`
is changed. -/
theorem next_netdev_state_is_result (g : Globals) :
    (next_netdev g).2.last_netdev = (next_netdev g).1
      ∧ ((next_netdev g).2.last_netdev = none ↔ (next_netdev g).1 = none)
      ∧ (∀ x, (next_netdev g).1 = some x → x ∈ g.net_devices)
      ∧ (next_netdev g).2.net_devices = g.net_devices := by
  have e : (next_netdev g).2.last_netdev = (next_netdev g).1 :=
    scan_fst_eq_snd g.net_devices g.last_netdev
  refine ⟨e, by rw [e], ?_, rfl⟩
  intro x hx
  exact scan_mem g.net_devices g.last_netdev x hx

/-! ## Properties of `netboot` -/

theorem stops_after_failure_spec (t : List Event) (h : stops_after_failure t = true)
    (pre : List Event) (e : Event) (post : List Event) (ht : t = pre ++ e :: post)
    (hf : event_failed e = true) : ∀ e2 ∈ post, callee_of e2 = none := by
  induction pre generalizing t with
  | nil =>
    subst ht
    simp only [List.nil_append, stops_after_failure, hf, if_true, List.all_eq_true,
      Option.isNone_iff_eq_none] at h
    exact h
  | cons x xs ih =>
    subst ht
    simp only [List.cons_append, stops_after_failure] at h
    by_cases hx : event_failed x = true
    · simp only [hx, if_true, List.all_eq_true, Option.isNone_iff_eq_none] at h
      intro e2 m
      exact h e2 (by simp [m])
    · simp only [hx] at h
      exact ih (xs ++ e :: post) h rfl

set_option maxHeartbeats 1000000 in
theorem netboot_refines {σ : Type} (c : Collab σ) (netdev : NetDevice) (w : σ) :
    (netboot c netdev w).1.filter (fun e => (callee_of e).isSome)
        = (boot_attempt c netdev w).2.calls
      ∧ (netboot c netdev w).2 = (boot_attempt c netdev w).2.world
      ∧ (∀ s, (boot_attempt c netdev w).1 = BootOutcome.Failure s ↔
            ∃ e ∈ (netboot c netdev w).1, event_failed e = true ∧ stage_of e = some s)
      ∧ ((boot_attempt c netdev w).1 = BootOutcome.Success ↔
            ∀ e ∈ (netboot c netdev w).1, event_failed e = false) := by
  rcases e1 : c.ifopen netdev w with ⟨rc1, w1⟩
  by_cases h1 : rc1 = 0
  swap
  · refine ⟨?_, ?_, ?_, ?_⟩ <;>
      simp [netboot, e1, h1, boot_attempt, run_stages, run_stage, stage_order, callee_of,
        event_failed, stage_of]
  rcases e3 : c.dhcp netdev (c.ifstat netdev w1) with ⟨rc3, w3⟩
  by_cases h3 : rc3 = 0
  swap
  · refine ⟨?_, ?_, ?_, ?_⟩ <;>
      simp [netboot, e1, h1, e3, h3, boot_attempt, run_stages, run_stage, stage_order, callee_of,
        event_failed, stage_of]
  rcases e5 : c.bootfile (c.route w3) with ⟨filename, w5⟩
  by_cases h5 : filename = ""
  · refine ⟨?_, ?_, ?_, ?_⟩ <;>
      simp [netboot, e1, h1, e3, h3, e5, h5, boot_attempt, run_stages, run_stage, stage_order, callee_of,
        event_failed, stage_of]
  rcases e6 : c.imgfetch filename w5 with ⟨⟨rc6, image⟩, w6⟩
  by_cases h6 : rc6 = 0
  swap
  · refine ⟨?_, ?_, ?_, ?_⟩ <;>
      simp [netboot, e1, h1, e3, h3, e5, h5, e6, h6, Ne.symm h5, boot_attempt, run_stages, run_stage, stage_order, callee_of,
        event_failed, stage_of]
  rcases e7 : c.imgload image w6 with ⟨rc7, w7⟩
  by_cases h7 : rc7 = 0
  swap
  · refine ⟨?_, ?_, ?_, ?_⟩ <;>
      simp [netboot, e1, h1, e3, h3, e5, h5, e6, h6, e7, h7, Ne.symm h5, boot_attempt, run_stages, run_stage, stage_order, callee_of,
        event_failed, stage_of]
  rcases e8 : c.imgexec image w7 with ⟨rc8, w8⟩
  by_cases h8 : rc8 = 0
  swap
  · refine ⟨?_, ?_, ?_, ?_⟩ <;>
      simp [netboot, e1, h1, e3, h3, e5, h5, e6, h6, e7, h7, e8, h8, Ne.symm h5, boot_attempt, run_stages, run_stage, stage_order, callee_of,
        event_failed, stage_of]
  · refine ⟨?_, ?_, ?_, ?_⟩ <;>
      simp [netboot, e1, h1, e3, h3, e5, h5, e6, h6, e7, h7, e8, h8, Ne.symm h5, boot_attempt, run_stages, run_stage, stage_order, callee_of,
        event_failed, stage_of]

set_option maxHeartbeats 1000000 in
theorem netboot_cases {σ : Type} (c : Collab σ) (netdev : NetDevice) (w : σ) :
    (∃ n, (netboot c netdev w).1.filterMap callee_of = netboot_call_order.take n)
      ∧ (∀ e ∈ (netboot c netdev w).1, ∀ d, event_netdev e = some d → d = netdev)
      ∧ stops_after_failure (netboot c netdev w).1 = true
      ∧ ((∀ e ∈ (netboot c netdev w).1, event_failed e = false) →
            (netboot c netdev w).1.filterMap callee_of = netboot_call_order)
      ∧ (Event.dhcp_snprintf "" ∈ (netboot c netdev w).1 →
            ∀ e ∈ (netboot c netdev w).1, callee_of e ≠ some Callee.imgfetch)
      ∧ (∀ e ∈ (netboot c netdev w).1,
            is_close e = false ∧ is_enter e = false ∧ is_leave e = false ∧ e ≠ exhausted)
      ∧ replay c (netboot c netdev w).1 w = (netboot c netdev w).2 := by
  rcases e1 : c.ifopen netdev w with ⟨rc1, w1⟩
  by_cases h1 : rc1 = 0
  swap
  · refine ⟨⟨1, ?_⟩, ?_, ?_, ?_, ?_, ?_, ?_⟩ <;>
      simp [netboot, e1, h1, event_netdev, stops_after_failure, event_failed, callee_of,
        netboot_call_order, is_close, is_enter, is_leave, exhausted, replay, apply_event]
  rcases e3 : c.dhcp netdev (c.ifstat netdev w1) with ⟨rc3, w3⟩
  by_cases h3 : rc3 = 0
  swap
  · refine ⟨⟨3, ?_⟩, ?_, ?_, ?_, ?_, ?_, ?_⟩ <;>
      simp [netboot, e1, h1, e3, h3, event_netdev, stops_after_failure, event_failed, callee_of,
        netboot_call_order, is_close, is_enter, is_leave, exhausted, replay, apply_event]
  rcases e5 : c.bootfile (c.route w3) with ⟨filename, w5⟩
  by_cases h5 : filename = ""
  · refine ⟨⟨5, ?_⟩, ?_, ?_, ?_, ?_, ?_, ?_⟩ <;>
      simp [netboot, e1, h1, e3, h3, e5, h5, event_netdev, stops_after_failure, event_failed, callee_of,
        netboot_call_order, is_close, is_enter, is_leave, exhausted, replay, apply_event]
  rcases e6 : c.imgfetch filename w5 with ⟨⟨rc6, image⟩, w6⟩
  by_cases h6 : rc6 = 0
  swap
  · refine ⟨⟨6, ?_⟩, ?_, ?_, ?_, ?_, ?_, ?_⟩ <;>
      simp [netboot, e1, h1, e3, h3, e5, h5, e6, h6, Ne.symm h5, event_netdev, stops_after_failure, event_failed, callee_of,
        netboot_call_order, is_close, is_enter, is_leave, exhausted, replay, apply_event]
  rcases e7 : c.imgload image w6 with ⟨rc7, w7⟩
  by_cases h7 : rc7 = 0
  swap
  · refine ⟨⟨7, ?_⟩, ?_, ?_, ?_, ?_, ?_, ?_⟩ <;>
      simp [netboot, e1, h1, e3, h3, e5, h5, e6, h6, e7, h7, Ne.symm h5, event_netdev, stops_after_failure, event_failed, callee_of,
        netboot_call_order, is_close, is_enter, is_leave, exhausted, replay, apply_event]
  rcases e8 : c.imgexec image w7 with ⟨rc8, w8⟩
  by_cases h8 : rc8 = 0
  swap
  · refine ⟨⟨8, ?_⟩, ?_, ?_, ?_, ?_, ?_, ?_⟩ <;>
      simp [netboot, e1, h1, e3, h3, e5, h5, e6, h6, e7, h7, e8, h8, Ne.symm h5, event_netdev, stops_after_failure, event_failed, callee_of,
        netboot_call_order, is_close, is_enter, is_leave, exhausted, replay, apply_event]
  · refine ⟨⟨8, ?_⟩, ?_, ?_, ?_, ?_, ?_, ?_⟩ <;>
      simp [netboot, e1, h1, e3, h3, e5, h5, e6, h6, e7, h7, e8, h8, Ne.symm h5, event_netdev, stops_after_failure, event_failed, callee_of,
        netboot_call_order, is_close, is_enter, is_leave, exhausted, replay, apply_event]

theorem netboot_inner {σ : Type} (c : Collab σ) (d : NetDevice) (w : σ) :
    ∀ e ∈ (netboot c d w).1,
      is_close e = false ∧ is_enter e = false ∧ is_leave e = false := fun e m =>
  let h := (netboot_cases c d w).2.2.2.2.2.1 e m
  ⟨h.1, h.2.1, h.2.2.1⟩

theorem netboot_ne_exhausted {σ : Type} (c : Collab σ) (d : NetDevice) (w : σ) :
    exhausted ∉ (netboot c d w).1 := fun m =>
  ((netboot_cases c d w).2.2.2.2.2.1 _ m).2.2.2 rfl

theorem netboot_replay {σ : Type} (c : Collab σ) (d : NetDevice) (w : σ) :
    replay c (netboot c d w).1 w = (netboot c d w).2 :=
  (netboot_cases c d w).2.2.2.2.2.2

/-- C7: for every device and every behaviour of the collaborators, `netboot`
makes the collaborator calls of the state machine of the design, with the
values the collaborators return, and leaves the world that machine leaves:
the stages run in the fixed order, each once, up to the first stage that
fails. So the calls of `netboot` are an initial segment of `ifopen`, `ifstat`,
`dhcp`, `route`, `dhcp_snprintf`, `imgfetch`, `imgload`, `imgexec`, all on
the device given, nothing is called after a call that reports failure (no
`imgfetch` after an empty filename), the attempt ends in `Failure s` exactly
when the call deciding stage `s` is made and fails, and in `Success` exactly
when no call fails, all calls being made then. -/
theorem netboot_stops_at_first_failure {σ : Type} (c : Collab σ) (netdev : NetDevice) (w : σ) :
    (netboot c netdev w).1.filter (fun e => (callee_of e).isSome)
        = (boot_attempt c netdev w).2.calls
      ∧ (netboot c netdev w).2 = (boot_attempt c netdev w).2.world
      ∧ (∃ n, (netboot c netdev w).1.filterMap callee_of = netboot_call_order.take n)
      ∧ ((netboot c netdev w).1.filterMap callee_of).Nodup
      ∧ (∀ e ∈ (netboot c netdev w).1, ∀ d, event_netdev e = some d → d = netdev)
      ∧ (∀ pre e post, (netboot c netdev w).1 = pre ++ e :: post → event_failed e = true →
            ∀ e2 ∈ post, callee_of e2 = none)
      ∧ (Event.dhcp_snprintf "" ∈ (netboot c netdev w).1 →
            ∀ e ∈ (netboot c netdev w).1, callee_of e ≠ some Callee.imgfetch)
      ∧ (∀ s, (boot_attempt c netdev w).1 = BootOutcome.Failure s ↔
            ∃ e ∈ (netboot c netdev w).1, event_failed e = true ∧ stage_of e = some s)
      ∧ ((boot_attempt c netdev w).1 = BootOutcome.Success ↔
            ∀ e ∈ (netboot c netdev w).1, event_failed e = false)
      ∧ ((boot_attempt c netdev w).1 = BootOutcome.Success →
            (netboot c netdev w).1.filterMap callee_of = netboot_call_order) := by
  obtain ⟨hcalls, hworld, hfail, hsucc⟩ := netboot_refines c netdev w
  obtain ⟨⟨n, hn⟩, hdev, hstop, hall, hfetch, _, _⟩ := netboot_cases c netdev w
  refine ⟨hcalls, hworld, ⟨n, hn⟩, ?_, hdev, ?_, hfetch, hfail, hsucc, ?_⟩
  · rw [hn]
    exact List.Sublist.nodup (List.take_sublist n _) (by decide)
  · intro pre e post ht hf
    exact stops_after_failure_spec _ hstop pre e post ht hf
  · intro hs
    exact hall (hsucc.mp hs)

/-! ## Lemmas on traces -/

theorem close_all_netdevs_trace {σ : Type} (c : Collab σ) (R : List NetDevice) (w : σ) :
    (close_all_netdevs c R w).1 = close_events R := by
  induction R generalizing w with
  | nil => rfl
  | cons x xs ih => simp [close_all_netdevs, close_events, ih]

theorem close_events_no_enter (R : List NetDevice) :
    ∀ e ∈ close_events R, is_enter e = false := by
  intro e m
  obtain ⟨d, _, rfl⟩ := List.mem_map.mp m
  rfl

theorem attempts_append (a b : List Event) : attempts (a ++ b) = attempts a ++ attempts b := by
  simp [attempts, List.filterMap_append]

theorem attempts_of_no_enter (t : List Event) (h : ∀ e ∈ t, is_enter e = false) :
    attempts t = [] := by
  induction t with
  | nil => rfl
  | cons x xs ih =>
    have hx := h x (by simp)
    have hxs : ∀ e ∈ xs, is_enter e = false := fun e m => h e (List.mem_cons_of_mem _ m)
    cases x <;> simp_all [attempts, is_enter]

theorem netboot_no_enter {σ : Type} (c : Collab σ) (d : NetDevice) (w : σ) :
    ∀ e ∈ (netboot c d w).1, is_enter e = false :=
  fun e m => (netboot_inner c d w e m).2.1

theorem call_netboot_trace {σ : Type} (c : Collab σ) (d : NetDevice) (w : σ) :
    (call_netboot c d w).1
      = Event.netboot_enter d :: ((netboot c d w).1 ++ [Event.netboot_leave d]) := rfl

theorem attempts_call_netboot {σ : Type} (c : Collab σ) (d : NetDevice) (w : σ) :
    attempts (call_netboot c d w).1 = [d] := by
  rw [call_netboot_trace]
  have h1 : attempts ((netboot c d w).1 ++ [Event.netboot_leave d]) = [] := by
    apply attempts_of_no_enter
    intro e m
    rcases List.mem_append.mp m with m | m
    · exact netboot_no_enter c d w e m
    · simp at m; subst m; rfl
  have h2 : attempts (Event.netboot_enter d :: ((netboot c d w).1 ++ [Event.netboot_leave d]))
      = d :: attempts ((netboot c d w).1 ++ [Event.netboot_leave d]) := rfl
  rw [h2, h1]

theorem attempts_loop {σ : Type} (c : Collab σ) (R : List NetDevice) (p : Option NetDevice)
    (rem : List NetDevice) (w : σ) :
    attempts (autoboot_loop c R p rem w).1 = rem.filter (fun d => decide (some d ≠ p)) := by
  induction rem generalizing w with
  | nil => rfl
  | cons x xs ih =>
    by_cases hx : some x = p
    · simp only [autoboot_loop, hx, if_true, ih]
      simp [List.filter_cons, hx]
    · simp only [autoboot_loop, hx, if_false, attempts_append, ih, attempts_call_netboot,
        close_all_netdevs_trace]
      rw [attempts_of_no_enter _ (close_events_no_enter R)]
      simp [List.filter_cons, hx]

theorem attempts_autoboot_with {σ : Type} (c : Collab σ) (R : List NetDevice)
    (p : Option NetDevice) (w : σ) :
    attempts (autoboot_with c R p w).1
      = p.toList ++ R.filter (fun d => decide (some d ≠ p)) := by
  unfold autoboot_with
  simp only [attempts_append, attempts_loop, close_all_netdevs_trace]
  rw [attempts_of_no_enter _ (close_events_no_enter R)]
  cases p with
  | none => simp [attempts]
  | some b =>
    simp only [attempts_call_netboot]
    simp [attempts]

theorem boot_order_nodup (R : List NetDevice) (p : Option NetDevice) (h : R.Nodup) :
    (p.toList ++ R.filter (fun d => decide (some d ≠ p))).Nodup := by
  cases p with
  | none => simpa using h
  | some b =>
    simp only [Option.toList, List.singleton_append, List.nodup_cons]
    refine ⟨?_, h.filter _⟩
    simp [List.mem_filter]


theorem close_events_ne_exhausted (R : List NetDevice) : exhausted ∉ close_events R := by
  intro m
  obtain ⟨d, _, h⟩ := List.mem_map.mp m
  simp [exhausted] at h

theorem call_netboot_ne_exhausted {σ : Type} (c : Collab σ) (d : NetDevice) (w : σ) :
    exhausted ∉ (call_netboot c d w).1 := by
  rw [call_netboot_trace]
  intro m
  simp only [List.mem_cons, List.mem_append, List.mem_singleton] at m
  rcases m with m | m | m
  · simp [exhausted] at m
  · exact netboot_ne_exhausted c d w m
  · rcases m with m | m
    · simp [exhausted] at m
    · simp at m

theorem loop_ne_exhausted {σ : Type} (c : Collab σ) (R : List NetDevice) (p : Option NetDevice)
    (rem : List NetDevice) (w : σ) : exhausted ∉ (autoboot_loop c R p rem w).1 := by
  induction rem generalizing w with
  | nil => simp [autoboot_loop]
  | cons x xs ih =>
    by_cases hx : some x = p
    · simp only [autoboot_loop, hx, if_true]
      exact ih w
    · simp only [autoboot_loop, hx, if_false, List.mem_append, not_or]
      refine ⟨⟨?_, call_netboot_ne_exhausted c x _⟩, ih _⟩
      rw [close_all_netdevs_trace]
      exact close_events_ne_exhausted R

theorem autoboot_with_trace {σ : Type} (c : Collab σ) (R : List NetDevice)
    (p : Option NetDevice) (w : σ) :
    ∃ t, (autoboot_with c R p w).1 = t ++ [exhausted] ∧ exhausted ∉ t := by
  refine ⟨_, rfl, ?_⟩
  simp only [List.mem_append, not_or]
  refine ⟨⟨?_, ?_⟩, loop_ne_exhausted c R p R _⟩
  · rw [close_all_netdevs_trace]
    exact close_events_ne_exhausted R
  · cases p with
    | none => simp
    | some b => exact call_netboot_ne_exhausted c b _


theorem split_at (q : Event → Bool) (X Y pre post : List Event) (e : Event)
    (hX : ∀ x ∈ X, q x = false) (he : q e = true) (h : X ++ Y = pre ++ e :: post) :
    ∃ pre2, pre = X ++ pre2 ∧ Y = pre2 ++ e :: post := by
  induction X generalizing pre with
  | nil => exact ⟨pre, rfl, h⟩
  | cons x xs ih =>
    cases pre with
    | nil =>
      simp only [List.cons_append, List.nil_append, List.cons.injEq] at h
      have := hX x (by simp)
      rw [h.1, he] at this
      exact absurd this (by simp)
    | cons y ys =>
      simp only [List.cons_append, List.cons.injEq] at h
      obtain ⟨pre2, h1, h2⟩ := ih ys (fun z m => hX z (List.mem_cons_of_mem _ m)) h.2
      exact ⟨pre2, by rw [h.1, h1]; rfl, h2⟩

theorem close_events_no_exec (R : List NetDevice) :
    ∀ e ∈ close_events R, is_exec e = false := by
  intro e m
  obtain ⟨d, _, rfl⟩ := List.mem_map.mp m
  rfl

theorem exec_of_no_exec (hist t : List Event) (h : ∀ e ∈ t, is_exec e = false) :
    ExecAfterEnter hist t := by
  intro pre image rc post ht
  have := h (Event.imgexec image rc) (by rw [ht]; simp)
  exact absurd this (by simp [is_exec])

theorem exec_append (hist X Y : List Event) (hX : ∀ e ∈ X, is_exec e = false)
    (hY : ExecAfterEnter (hist ++ X) Y) : ExecAfterEnter hist (X ++ Y) := by
  intro pre image rc post ht
  obtain ⟨pre2, h1, h2⟩ := split_at is_exec X Y pre post (Event.imgexec image rc) hX rfl ht
  have := hY pre2 image rc post h2
  rw [h1, ← List.append_assoc]
  exact this

theorem exec_cons_enter (hist Z : List Event) (d : NetDevice) :
    ExecAfterEnter hist (Event.netboot_enter d :: Z) := by
  intro pre image rc post ht
  cases pre with
  | nil => simp at ht
  | cons y ys =>
    simp only [List.cons_append, List.cons.injEq] at ht
    rw [← ht.1, attempts_append]
    intro e
    have h2 : attempts (Event.netboot_enter d :: ys) = d :: attempts ys := rfl
    rw [h2] at e
    simp at e

theorem exec_loop {σ : Type} (c : Collab σ) (R : List NetDevice) (p : Option NetDevice)
    (rem : List NetDevice) (w : σ) (hist tail : List Event)
    (htail : ∀ e ∈ tail, is_exec e = false) :
    ExecAfterEnter hist ((autoboot_loop c R p rem w).1 ++ tail) := by
  induction rem generalizing w hist with
  | nil => exact exec_of_no_exec _ _ htail
  | cons x xs ih =>
    by_cases hx : some x = p
    · simp only [autoboot_loop, hx, if_true]
      exact ih w hist
    · simp only [autoboot_loop, hx, if_false, close_all_netdevs_trace, call_netboot_trace,
        List.append_assoc, List.cons_append]
      apply exec_append _ _ _ (close_events_no_exec R)
      exact exec_cons_enter _ _ _

theorem exec_autoboot {σ : Type} (c : Collab σ) (R : List NetDevice) (p : Option NetDevice)
    (w : σ) : ExecAfterEnter [] (autoboot_with c R p w).1 := by
  have htail : ∀ e ∈ [exhausted], is_exec e = false := by
    intro e m
    simp at m; subst m; rfl
  unfold autoboot_with
  cases p with
  | none =>
    simp only [close_all_netdevs_trace, List.append_assoc, List.nil_append]
    apply exec_append _ _ _ (close_events_no_exec R)
    exact exec_loop c R none R _ _ _ htail
  | some b =>
    simp only [close_all_netdevs_trace, call_netboot_trace, List.append_assoc, List.cons_append]
    apply exec_append _ _ _ (close_events_no_exec R)
    exact exec_cons_enter _ _ _

/-! ## Properties of `autoboot` on a registry that stays the same -/

/-- C3: on a registry `R` of pairwise-distinct devices, with `p` the result
of boot-device identification, `autoboot` calls `netboot` on `p` first when a
device was identified, then on the members of `R` in registry order with `p`
left out; so no device is attempted more than once. -/
theorem autoboot_attempt_order {σ : Type} (c : Collab σ) (R : List NetDevice)
    (p : Option NetDevice) (w : σ) (h : R.Nodup) :
    attempts (autoboot_with c R p w).1 = p.toList ++ R.filter (fun d => decide (some d ≠ p))
      ∧ (attempts (autoboot_with c R p w).1).Nodup := by
  rw [attempts_autoboot_with]
  exact ⟨rfl, boot_order_nodup R p h⟩

theorem autoboot_attempt_order_witness :
    attempts (autoboot_with always_ok [1, 2, 3] (some 2) ()).1
        = (some 2).toList ++ [1, 2, 3].filter (fun d => decide (some d ≠ some 2))
      ∧ (attempts (autoboot_with always_ok [1, 2, 3] (some 2) ()).1).Nodup :=
  autoboot_attempt_order always_ok [1, 2, 3] (some 2) () (by decide)

/-- C4 as stated fails: with collaborators that succeed at everything and
the registry `[1, 2]`, every stage of the attempt on device 1 succeeds and
`autoboot` still calls `netboot` on device 2. -/
theorem autoboot_goes_on_after_success :
    (boot_attempt always_ok 1 ()).1 = BootOutcome.Success
      ∧ attempts (autoboot always_ok [1, 2] ()).1 = [1, 2]
      ∧ ¬ no_attempt_after_success (autoboot always_ok [1, 2] ()).1 := by
  refine ⟨rfl, rfl, ?_⟩
  intro h
  have h2 := h
    [Event.ifclose 1, Event.ifclose 2, Event.ifclose 1, Event.ifclose 2,
     Event.netboot_enter 1, Event.ifopen 1 0, Event.ifstat 1, Event.dhcp 1 0, Event.route,
     Event.dhcp_snprintf "pxelinux.0", Event.printf "Booting \"%s\"\n" ["pxelinux.0"],
     Event.imgfetch "pxelinux.0" 0, Event.imgload ⟨"pxelinux.0"⟩ 0]
    ⟨"pxelinux.0"⟩
    [Event.netboot_leave 1, Event.ifclose 1, Event.ifclose 2,
     Event.netboot_enter 2, Event.ifopen 2 0, Event.ifstat 2, Event.dhcp 2 0, Event.route,
     Event.dhcp_snprintf "pxelinux.0", Event.printf "Booting \"%s\"\n" ["pxelinux.0"],
     Event.imgfetch "pxelinux.0" 0, Event.imgload ⟨"pxelinux.0"⟩ 0,
     Event.imgexec ⟨"pxelinux.0"⟩ 0, Event.netboot_leave 2, exhausted]
    rfl
  simp [attempts] at h2

/-- C4 amended: on a registry that stays the same during the run, `autoboot`
goes on after an attempt that succeeds. When an `imgexec` reports success,
it does so inside the attempt on some device `d` of the attempt order (the
boot device if any, then the other registry members in order), and the
`netboot` calls that follow it are exactly the devices that come after `d`
in that order. -/
theorem autoboot_continues_after_success {σ : Type} (c : Collab σ) (R : List NetDevice)
    (p : Option NetDevice) (w : σ) (pre : List Event) (image : Image) (post : List Event)
    (h : (autoboot_with c R p w).1 = pre ++ Event.imgexec image 0 :: post) :
    ∃ before d, attempts pre = before ++ [d]
      ∧ p.toList ++ R.filter (fun d => decide (some d ≠ p)) = before ++ d :: attempts post := by
  have hne : attempts pre ≠ [] := by
    have := exec_autoboot c R p w pre image 0 post h
    simpa using this
  have hall := attempts_autoboot_with c R p w
  rw [h, attempts_append] at hall
  have hpost : attempts (Event.imgexec image 0 :: post) = attempts post := rfl
  rw [hpost] at hall
  refine ⟨(attempts pre).dropLast, (attempts pre).getLast hne, ?_, ?_⟩
  · exact (List.dropLast_append_getLast hne).symm
  · rw [← hall]
    conv_lhs => rw [← List.dropLast_append_getLast hne]
    simp

theorem autoboot_continues_after_success_witness :
    ∃ before d,
      attempts [Event.ifclose 5, Event.ifclose 6, Event.ifclose 5, Event.ifclose 6,
          Event.netboot_enter 5, Event.ifopen 5 0, Event.ifstat 5, Event.dhcp 5 0,
          Event.route, Event.dhcp_snprintf "pxelinux.0",
          Event.printf "Booting \"%s\"\n" ["pxelinux.0"], Event.imgfetch "pxelinux.0" 0,
          Event.imgload ⟨"pxelinux.0"⟩ 0] = before ++ [d]
      ∧ (none : Option NetDevice).toList ++ [5, 6].filter (fun d => decide (some d ≠ none))
          = before ++ d :: attempts [Event.netboot_leave 5, Event.ifclose 5, Event.ifclose 6,
              Event.netboot_enter 6, Event.ifopen 6 0, Event.ifstat 6, Event.dhcp 6 0,
              Event.route, Event.dhcp_snprintf "pxelinux.0",
              Event.printf "Booting \"%s\"\n" ["pxelinux.0"], Event.imgfetch "pxelinux.0" 0,
              Event.imgload ⟨"pxelinux.0"⟩ 0, Event.imgexec ⟨"pxelinux.0"⟩ 0,
              Event.netboot_leave 6, exhausted] :=
  autoboot_continues_after_success always_ok [5, 6] none () _ ⟨"pxelinux.0"⟩ _ rfl

/-- C5: on a registry of pairwise-distinct devices, whatever the attempts
do (so also when every one of them fails), `autoboot` returns after at most
one `netboot` call per device, and `No more network devices` is printed once,
as the last event; with an empty registry and no boot device identified it
is the only event. -/
theorem autoboot_reports_exhaustion_once {σ : Type} (c : Collab σ) (R : List NetDevice)
    (p : Option NetDevice) (w : σ) (h : R.Nodup) :
    (∀ d, (attempts (autoboot_with c R p w).1).count d ≤ 1)
      ∧ (autoboot_with c R p w).1.getLast? = some exhausted
      ∧ (autoboot_with c R p w).1.count exhausted = 1
      ∧ (R = [] → p = none → (autoboot_with c R p w).1 = [exhausted]) := by
  obtain ⟨t, ht, hne⟩ := autoboot_with_trace c R p w
  refine ⟨?_, ?_, ?_, ?_⟩
  · intro d
    rw [attempts_autoboot_with]
    exact List.nodup_iff_count_le_one.mp (boot_order_nodup R p h) d
  · rw [ht]; simp
  · rw [ht, List.count_append, List.count_eq_zero_of_not_mem hne]
    simp
  · intro hR hp
    subst hR hp
    rfl

theorem autoboot_reports_exhaustion_once_witness :
    (∀ d, (attempts (autoboot_with always_ok [4, 6] none ()).1).count d ≤ 1)
      ∧ (autoboot_with always_ok [4, 6] none ()).1.getLast? = some exhausted
      ∧ (autoboot_with always_ok [4, 6] none ()).1.count exhausted = 1
      ∧ ([4, 6] = [] → (none : Option NetDevice) = none →
          (autoboot_with always_ok [4, 6] none ()).1 = [exhausted]) :=
  autoboot_reports_exhaustion_once always_ok [4, 6] none () (by decide)

/-! ## Lemmas on runs over a device list that may change -/

theorem replay_append {σ : Type} (c : Collab σ) (a b : List Event) (w : σ) :
    replay c (a ++ b) w = replay c b (replay c a w) := by
  simp [replay, List.foldl_append]

theorem replay_call_netboot {σ : Type} (c : Collab σ) (d : NetDevice) (w : σ) :
    replay c (Event.netboot_enter d :: ((netboot c d w).1 ++ [Event.netboot_leave d])) w
      = (netboot c d w).2 := by
  have h1 : replay c (Event.netboot_enter d :: ((netboot c d w).1 ++ [Event.netboot_leave d])) w
      = replay c ((netboot c d w).1 ++ [Event.netboot_leave d]) w := rfl
  rw [h1, replay_append, netboot_replay]
  rfl

theorem close_live_spec {σ : Type} (l : ListReads σ) (c : Collab σ) (fuel : Nat)
    (cur : Option NetDevice) (w : σ) :
    replay c (close_all_netdevs_live l c fuel cur w).1 w
        = (close_all_netdevs_live l c fuel cur w).2.1
      ∧ (∀ e ∈ (close_all_netdevs_live l c fuel cur w).1, is_close e = true)
      ∧ ((close_all_netdevs_live l c fuel cur w).2.2 = true →
          ∃ ds, (close_all_netdevs_live l c fuel cur w).1 = ds.map Event.ifclose
            ∧ complete_pass l c cur w ds = true) := by
  induction fuel generalizing cur w with
  | zero =>
    cases cur with
    | none => exact ⟨rfl, by simp [close_all_netdevs_live], fun _ => ⟨[], rfl, rfl⟩⟩
    | some d => exact ⟨rfl, by simp [close_all_netdevs_live], by simp [close_all_netdevs_live]⟩
  | succ n ih =>
    cases cur with
    | none => exact ⟨rfl, by simp [close_all_netdevs_live], fun _ => ⟨[], rfl, rfl⟩⟩
    | some d =>
      obtain ⟨h1, h2, h3⟩ := ih (l.next d (c.ifclose d w)) (c.ifclose d w)
      refine ⟨?_, ?_, ?_⟩
      · simp only [close_all_netdevs_live]
        exact h1
      · intro e m
        simp only [close_all_netdevs_live, List.mem_cons] at m
        rcases m with m | m
        · subst m; rfl
        · exact h2 e m
      · intro hf
        simp only [close_all_netdevs_live] at hf
        obtain ⟨ds, hd, hc⟩ := h3 hf
        refine ⟨d :: ds, ?_, ?_⟩
        · simp only [close_all_netdevs_live, List.map_cons, hd]
        · simp [complete_pass, hc]

theorem close_live_no_enter {σ : Type} (l : ListReads σ) (c : Collab σ) (fuel : Nat)
    (cur : Option NetDevice) (w : σ) :
    ∀ e ∈ (close_all_netdevs_live l c fuel cur w).1, is_enter e = false := by
  intro e m
  have := (close_live_spec l c fuel cur w).2.1 e m
  cases e <;> simp_all [is_close, is_enter]

theorem live_of_no_enter {σ : Type} (l : ListReads σ) (c : Collab σ) (w0 : σ)
    (hist t : List Event) (h : ∀ e ∈ t, is_enter e = false) : LiveClean l c w0 hist t := by
  intro pre d post ht
  have := h (Event.netboot_enter d) (by rw [ht]; simp)
  exact absurd this (by simp [is_enter])

theorem live_append {σ : Type} (l : ListReads σ) (c : Collab σ) (w0 : σ)
    (hist X Y : List Event) (hX : ∀ e ∈ X, is_enter e = false)
    (hY : LiveClean l c w0 (hist ++ X) Y) : LiveClean l c w0 hist (X ++ Y) := by
  intro pre d post ht
  obtain ⟨pre2, h1, h2⟩ := split_at is_enter X Y pre post (Event.netboot_enter d) hX rfl ht
  have := hY pre2 d post h2
  rw [h1, ← List.append_assoc]
  exact this

theorem live_call {σ : Type} (l : ListReads σ) (c : Collab σ) (w0 : σ)
    (hist Y : List Event) (d : NetDevice)
    (hpass : ∃ pre0 ds, hist = pre0 ++ ds.map Event.ifclose
      ∧ complete_pass l c (l.first (replay c pre0 w0)) (replay c pre0 w0) ds = true)
    (hY : LiveClean l c w0
      (hist ++ Event.netboot_enter d ::
        ((netboot c d (replay c hist w0)).1 ++ [Event.netboot_leave d])) Y) :
    LiveClean l c w0 hist
      (Event.netboot_enter d ::
        ((netboot c d (replay c hist w0)).1 ++ Event.netboot_leave d :: Y)) := by
  intro pre d2 post ht
  cases pre with
  | nil =>
    simp only [List.nil_append, List.cons.injEq, Event.netboot_enter.injEq] at ht
    obtain ⟨hd, hp⟩ := ht
    subst hd
    obtain ⟨pre0, ds, h1, h2⟩ := hpass
    refine ⟨pre0, ds, by simpa using h1, h2, Y, ?_⟩
    rw [List.append_nil]
    exact hp.symm
  | cons y ys =>
    simp only [List.cons_append, List.cons.injEq] at ht
    obtain ⟨hy, hr⟩ := ht
    have e : (netboot c d (replay c hist w0)).1 ++ Event.netboot_leave d :: Y
        = ((netboot c d (replay c hist w0)).1 ++ [Event.netboot_leave d]) ++ Y := by
      simp
    rw [e] at hr
    have hX : ∀ e ∈ (netboot c d (replay c hist w0)).1 ++ [Event.netboot_leave d],
        is_enter e = false := by
      intro e m
      rcases List.mem_append.mp m with m | m
      · exact (netboot_inner c d _ e m).2.1
      · simp at m; subst m; rfl
    obtain ⟨pre2, h1, h2⟩ :=
      split_at is_enter _ Y ys post (Event.netboot_enter d2) hX rfl hr
    have := hY pre2 d2 post h2
    rw [← hy, h1]
    simpa using this

theorem live_loop {σ : Type} (l : ListReads σ) (c : Collab σ) (p : Option NetDevice)
    (inner : Nat) (w0 : σ) (fuel : Nat) (cur : Option NetDevice) (w : σ)
    (hist tail : List Event) (hw : w = replay c hist w0)
    (htail : ∀ e ∈ tail, is_enter e = false) :
    LiveClean l c w0 hist ((autoboot_loop_live l c p inner fuel cur w).1 ++ tail) := by
  induction fuel generalizing cur w hist with
  | zero =>
    cases cur with
    | none => exact live_of_no_enter _ _ _ _ _ htail
    | some d => exact live_of_no_enter _ _ _ _ _ htail
  | succ n ih =>
    cases cur with
    | none => exact live_of_no_enter _ _ _ _ _ htail
    | some d =>
      by_cases hd : some d = p
      · simp only [autoboot_loop_live, hd, if_true]
        exact ih _ w hist hw
      · obtain ⟨hrep, _, hfin⟩ := close_live_spec l c inner (l.first w) w
        by_cases hf : (close_all_netdevs_live l c inner (l.first w) w).2.2 = true
        · obtain ⟨ds, hds, hcp⟩ := hfin hf
          have hworld : replay c (hist ++ (close_all_netdevs_live l c inner (l.first w) w).1) w0
              = (close_all_netdevs_live l c inner (l.first w) w).2.1 := by
            rw [replay_append, ← hw, hrep]
          simp only [autoboot_loop_live, hd, if_false, hf, if_true, call_netboot_trace,
            List.append_assoc, List.cons_append]
          apply live_append _ _ _ _ _ _ (close_live_no_enter l c inner _ w)
          rw [← hworld]
          apply live_call
          · exact ⟨hist, ds, by rw [hds], by rw [← hw]; exact hcp⟩
          · apply ih
            simp only [replay_append]
            rw [replay_call_netboot]
            rfl
        · simp only [autoboot_loop_live, hd, if_false, hf]
          apply live_of_no_enter
          intro e m
          rcases List.mem_append.mp m with m | m
          · exact close_live_no_enter l c inner _ w e m
          · exact htail e m


theorem live_autoboot {σ : Type} (l : ListReads σ) (c : Collab σ) (p : Option NetDevice)
    (fuel : Nat) (w : σ) : LiveClean l c w [] (autoboot_live l c p fuel w).1 := by
  obtain ⟨hrep, _, hfin⟩ := close_live_spec l c fuel (l.first w) w
  have hclose := close_live_no_enter l c fuel (l.first w) w
  by_cases hf : (close_all_netdevs_live l c fuel (l.first w) w).2.2 = true
  swap
  · simp only [autoboot_live, hf]
    exact live_of_no_enter _ _ _ _ _ hclose
  obtain ⟨ds, hds, hcp⟩ := hfin hf
  have htail : ∀ (b : Bool), ∀ e ∈ (if b = true then [exhausted] else []),
      is_enter e = false := by
    intro b e m
    cases b
    · simp at m
    · simp at m; subst m; rfl
  cases p with
  | none =>
    have key : (autoboot_live l c none fuel w).1
        = (close_all_netdevs_live l c fuel (l.first w) w).1
          ++ ((autoboot_loop_live l c none fuel fuel
                (l.first (close_all_netdevs_live l c fuel (l.first w) w).2.1)
                (close_all_netdevs_live l c fuel (l.first w) w).2.1).1
              ++ (if (autoboot_loop_live l c none fuel fuel
                (l.first (close_all_netdevs_live l c fuel (l.first w) w).2.1)
                (close_all_netdevs_live l c fuel (l.first w) w).2.1).2.2 = true
                  then [exhausted] else [])) := by
      simp only [autoboot_live, hf, if_true]
      split <;> simp [exhausted]
    rw [key]
    apply live_append _ _ _ _ _ _ hclose
    apply live_loop
    · rw [List.nil_append, hrep]
    · exact htail _
  | some b =>
    have key : (autoboot_live l c (some b) fuel w).1
        = (close_all_netdevs_live l c fuel (l.first w) w).1
          ++ (Event.netboot_enter b ::
              ((netboot c b (close_all_netdevs_live l c fuel (l.first w) w).2.1).1
                ++ Event.netboot_leave b ::
              ((autoboot_loop_live l c (some b) fuel fuel
                (l.first (netboot c b (close_all_netdevs_live l c fuel (l.first w) w).2.1).2)
                (netboot c b (close_all_netdevs_live l c fuel (l.first w) w).2.1).2).1
              ++ (if (autoboot_loop_live l c (some b) fuel fuel
                (l.first (netboot c b (close_all_netdevs_live l c fuel (l.first w) w).2.1).2)
                (netboot c b (close_all_netdevs_live l c fuel (l.first w) w).2.1).2).2.2 = true
                  then [exhausted] else [])))) := by
      simp only [autoboot_live, hf, if_true, call_netboot]
      split <;> simp [exhausted]
    rw [key]
    apply live_append _ _ _ _ _ _ hclose
    have hworld : replay c ([] ++ (close_all_netdevs_live l c fuel (l.first w) w).1) w
        = (close_all_netdevs_live l c fuel (l.first w) w).2.1 := by
      rw [List.nil_append, hrep]
    rw [← hworld]
    apply live_call
    · exact ⟨[], ds, by rw [hds], hcp⟩
    · apply live_loop
      · simp only [replay_append]
        rw [replay_call_netboot]
      · exact htail _

theorem entry_after_append (pre post : List NetDevice) (d : NetDevice) (h : d ∉ pre) :
    entry_after d (pre ++ d :: post) = post.head? := by
  induction pre with
  | nil => simp [entry_after]
  | cons x xs ih =>
    have hx : x ≠ d := fun e => h (by simp [e])
    have hxs : d ∉ xs := fun m => h (List.mem_cons_of_mem _ m)
    simp [entry_after, hx, ih hxs]

theorem complete_pass_fixed {σ : Type} (c : Collab σ) (pre post : List NetDevice)
    (hnd : (pre ++ post).Nodup) (w : σ) (ds : List NetDevice)
    (h : complete_pass (fixed_reads (pre ++ post)) c post.head? w ds = true) : ds = post := by
  induction post generalizing pre w ds with
  | nil =>
    cases ds with
    | nil => rfl
    | cons y ys => simp [complete_pass] at h
  | cons x xs ih =>
    cases ds with
    | nil => simp [complete_pass] at h
    | cons y ys =>
      have hx : x ∉ pre := fun m => (List.nodup_append.mp hnd).2.2 m (by simp)
      simp only [List.head?_cons, complete_pass, Bool.and_eq_true, decide_eq_true_eq] at h
      obtain ⟨hy, hr⟩ := h
      have e : pre ++ x :: xs = (pre ++ [x]) ++ xs := by simp
      have hn : (fixed_reads (pre ++ x :: xs) : ListReads σ).next x (c.ifclose x w)
          = xs.head? := entry_after_append pre xs x hx
      rw [hn, e] at hr
      rw [e] at hnd
      rw [hy, ih (pre ++ [x]) hnd _ ys hr]

theorem next_after_closes {σ : Type} (l : ListReads σ) (c : Collab σ)
    (hnext : ∀ x d v, l.next x (c.ifclose d v) = l.next x v) (x : NetDevice)
    (ds : List NetDevice) (w : σ) :
    l.next x (ds.foldl (fun v d2 => c.ifclose d2 v) w) = l.next x w := by
  induction ds generalizing w with
  | nil => rfl
  | cons y ys ih =>
    rw [List.foldl_cons, ih, hnext]

theorem first_after_closes {σ : Type} (l : ListReads σ) (c : Collab σ)
    (hfirst : ∀ d v, l.first (c.ifclose d v) = l.first v)
    (ds : List NetDevice) (w : σ) :
    l.first (ds.foldl (fun v d2 => c.ifclose d2 v) w) = l.first w := by
  induction ds generalizing w with
  | nil => rfl
  | cons y ys ih =>
    rw [List.foldl_cons, ih, hfirst]

theorem complete_pass_static {σ : Type} (l : ListReads σ) (c : Collab σ)
    (hnext : ∀ x d v, l.next x (c.ifclose d v) = l.next x v)
    (cur : Option NetDevice) (w : σ) (ds : List NetDevice)
    (h : complete_pass l c cur w ds = true) :
    list_walk l cur (ds.foldl (fun v d2 => c.ifclose d2 v) w) ds = true := by
  induction ds generalizing cur w with
  | nil =>
    cases cur with
    | none => rfl
    | some d => simp [complete_pass] at h
  | cons y ys ih =>
    cases cur with
    | none => simp [complete_pass] at h
    | some d =>
      simp only [complete_pass, Bool.and_eq_true, decide_eq_true_eq] at h
      obtain ⟨hy, hr⟩ := h
      subst hy
      have := ih _ _ hr
      rw [hnext] at this
      simp only [List.foldl_cons, list_walk, Bool.and_eq_true, decide_eq_true_eq]
      refine ⟨trivial, ?_⟩
      rw [next_after_closes l c hnext, hnext]
      exact this


theorem replay_closes {σ : Type} (c : Collab σ) (ds : List NetDevice) (w : σ) :
    replay c (ds.map Event.ifclose) w = ds.foldl (fun v d => c.ifclose d v) w := by
  induction ds generalizing w with
  | nil => rfl
  | cons x xs ih => exact ih (c.ifclose x w)

theorem close_live_fixed {σ : Type} (c : Collab σ) (pre post : List NetDevice)
    (hnd : (pre ++ post).Nodup) (fuel : Nat) (hf : post.length ≤ fuel) (w : σ) :
    close_all_netdevs_live (fixed_reads (pre ++ post)) c fuel post.head? w
      = ((close_all_netdevs c post w).1, (close_all_netdevs c post w).2, true) := by
  induction post generalizing pre fuel w with
  | nil => cases fuel <;> rfl
  | cons x xs ih =>
    cases fuel with
    | zero => simp at hf
    | succ n =>
      have hx : x ∉ pre := fun m => (List.nodup_append.mp hnd).2.2 m (by simp)
      have e : pre ++ x :: xs = (pre ++ [x]) ++ xs := by simp
      have hn : (fixed_reads (pre ++ x :: xs) : ListReads σ).next x (c.ifclose x w)
          = xs.head? := entry_after_append pre xs x hx
      simp only [List.head?_cons, close_all_netdevs_live, close_all_netdevs, hn]
      rw [e] at hnd ⊢
      rw [ih (pre ++ [x]) hnd n (by simpa using hf)]

theorem loop_live_fixed {σ : Type} (c : Collab σ) (p : Option NetDevice)
    (pre post : List NetDevice) (hnd : (pre ++ post).Nodup) (inner : Nat)
    (hin : (pre ++ post).length ≤ inner) (fuel : Nat) (hf : post.length ≤ fuel) (w : σ) :
    autoboot_loop_live (fixed_reads (pre ++ post)) c p inner fuel post.head? w
      = ((autoboot_loop c (pre ++ post) p post w).1,
         (autoboot_loop c (pre ++ post) p post w).2, true) := by
  induction post generalizing pre fuel w with
  | nil => cases fuel <;> rfl
  | cons x xs ih =>
    cases fuel with
    | zero => simp at hf
    | succ n =>
      have hx : x ∉ pre := fun m => (List.nodup_append.mp hnd).2.2 m (by simp)
      have e : pre ++ x :: xs = (pre ++ [x]) ++ xs := by simp
      have hn : ∀ v : σ, (fixed_reads (pre ++ x :: xs) : ListReads σ).next x v = xs.head? :=
        fun _ => entry_after_append pre xs x hx
      have hfirst : ∀ v : σ, (fixed_reads (pre ++ x :: xs) : ListReads σ).first v
          = (pre ++ x :: xs).head? := fun _ => rfl
      have hclose : ∀ v : σ,
          close_all_netdevs_live (fixed_reads (pre ++ x :: xs)) c inner (pre ++ x :: xs).head? v
            = ((close_all_netdevs c (pre ++ x :: xs) v).1,
               (close_all_netdevs c (pre ++ x :: xs) v).2, true) := by
        intro v
        have := close_live_fixed c [] (pre ++ x :: xs) (by simpa using hnd) inner
          (by simpa using hin) v
        simpa using this
      have hih : ∀ v : σ,
          autoboot_loop_live (fixed_reads (pre ++ x :: xs)) c p inner n xs.head? v
            = ((autoboot_loop c (pre ++ x :: xs) p xs v).1,
               (autoboot_loop c (pre ++ x :: xs) p xs v).2, true) := by
        intro v
        have := ih (pre ++ [x]) (by rw [← e]; exact hnd) (by rw [← e]; exact hin) n
          (by simpa using hf) v
        rw [← e] at this
        exact this
      by_cases hp : some x = p
      · simp only [List.head?_cons, autoboot_loop_live, autoboot_loop, hp, if_true, hn, hih]
      · simp only [List.head?_cons, autoboot_loop_live, autoboot_loop, hp, if_false, hn,
          hfirst, hclose, if_true, hih]

/-- On a device list `R` of pairwise-distinct devices that no call changes,
and with at least `R.length` iterations allowed, the run that follows the
links of the list is the run over the list `R`, and it reaches the end of
`autoboot`. -/
theorem autoboot_live_fixed {σ : Type} (c : Collab σ) (R : List NetDevice)
    (p : Option NetDevice) (hnd : R.Nodup) (fuel : Nat) (hf : R.length ≤ fuel) (w : σ) :
    autoboot_live (fixed_reads R) c p fuel w
      = ((autoboot_with c R p w).1, (autoboot_with c R p w).2, true) := by
  have hfirst : ∀ v : σ, (fixed_reads R : ListReads σ).first v = R.head? := fun _ => rfl
  have hclose := fun v : σ => close_live_fixed c [] R (by simpa using hnd) fuel hf v
  have hloop := fun v : σ =>
    loop_live_fixed c p [] R (by simpa using hnd) fuel (by simpa using hf) fuel hf v
  simp only [List.nil_append] at hclose hloop
  simp only [autoboot_live, autoboot_with, hfirst, hclose, if_true, hloop]

/-! ## Properties of `autoboot` on a registry that may change -/

/-- C6: in the trace of any run of `autoboot` (the device list may be changed
by any call, the run may be cut short by the bound on iterations), every
`netboot` call comes right after a complete `close_all_netdevs` pass: a walk
of the device list, up to its end, that calls `ifclose` on each device it
meets, so that `netboot` starts in the world these `ifclose` calls leave.
When `ifclose` itself leaves the links of the list alone, the devices closed
are exactly the entries of the list as it stands when `netboot` starts; when
the list is a fixed `R` they are the devices of `R`. What follows the start
of the call are the calls of `netboot` alone, none of them an `ifclose`, and
then its return. On a list that is a fixed `R` of distinct devices, with
`R.length` iterations allowed, the run is the run `autoboot_with` over `R`,
to which all this applies. -/
theorem autoboot_closes_before_each_attempt {σ : Type} (l : ListReads σ) (c : Collab σ)
    (p : Option NetDevice) (fuel : Nat) (w : σ) (pre : List Event) (d : NetDevice)
    (post : List Event)
    (h : (autoboot_live l c p fuel w).1 = pre ++ Event.netboot_enter d :: post) :
    (∃ pre0 ds, pre = pre0 ++ ds.map Event.ifclose
      ∧ complete_pass l c (l.first (replay c pre0 w)) (replay c pre0 w) ds = true
      ∧ replay c pre w = ds.foldl (fun v d2 => c.ifclose d2 v) (replay c pre0 w)
      ∧ ((∀ d2 v, l.first (c.ifclose d2 v) = l.first v) →
          (∀ x d2 v, l.next x (c.ifclose d2 v) = l.next x v) →
          list_walk l (l.first (replay c pre w)) (replay c pre w) ds = true)
      ∧ (∀ R : List NetDevice, R.Nodup → l = fixed_reads R → ds = R)
      ∧ ∃ rest, post = (netboot c d (replay c pre w)).1 ++ Event.netboot_leave d :: rest
          ∧ ∀ e ∈ (netboot c d (replay c pre w)).1,
              is_close e = false ∧ is_enter e = false ∧ is_leave e = false)
      ∧ (∀ R : List NetDevice, R.Nodup → R.length ≤ fuel → l = fixed_reads R →
          autoboot_live l c p fuel w
            = ((autoboot_with c R p w).1, (autoboot_with c R p w).2, true)) := by
  obtain ⟨pre0, ds, h1, h2, rest, h3⟩ := live_autoboot l c p fuel w pre d post h
  rw [List.nil_append] at h1 h3
  have hrep : replay c pre w = ds.foldl (fun v d2 => c.ifclose d2 v) (replay c pre0 w) := by
    rw [h1, replay_append, replay_closes]
  refine ⟨⟨pre0, ds, h1, h2, hrep, ?_, ?_, rest, h3, netboot_inner c d _⟩, ?_⟩
  · intro hfirst hnext
    rw [hrep, first_after_closes l c hfirst]
    exact complete_pass_static l c hnext _ _ ds h2
  · intro R hnd hl
    subst hl
    exact complete_pass_fixed c [] R (by simpa using hnd) _ ds h2
  · intro R hnd hf hl
    subst hl
    exact autoboot_live_fixed c R p hnd fuel hf w

theorem autoboot_closes_before_each_attempt_witness :
    (∃ pre0 ds,
      [Event.ifclose 1, Event.ifclose 1, Event.netboot_enter 1, Event.ifopen 1 1,
        Event.netboot_leave 1, Event.ifclose 1, Event.ifclose 2]
          = pre0 ++ ds.map Event.ifclose
      ∧ complete_pass world_reads hotplug_down
          (world_reads.first (replay hotplug_down pre0 [1])) (replay hotplug_down pre0 [1]) ds
          = true
      ∧ replay hotplug_down
          [Event.ifclose 1, Event.ifclose 1, Event.netboot_enter 1, Event.ifopen 1 1,
            Event.netboot_leave 1, Event.ifclose 1, Event.ifclose 2] [1]
          = ds.foldl (fun v d2 => hotplug_down.ifclose d2 v) (replay hotplug_down pre0 [1])
      ∧ ((∀ d2 v, world_reads.first (hotplug_down.ifclose d2 v) = world_reads.first v) →
          (∀ x d2 v, world_reads.next x (hotplug_down.ifclose d2 v) = world_reads.next x v) →
          list_walk world_reads
            (world_reads.first (replay hotplug_down
              [Event.ifclose 1, Event.ifclose 1, Event.netboot_enter 1, Event.ifopen 1 1,
                Event.netboot_leave 1, Event.ifclose 1, Event.ifclose 2] [1]))
            (replay hotplug_down
              [Event.ifclose 1, Event.ifclose 1, Event.netboot_enter 1, Event.ifopen 1 1,
                Event.netboot_leave 1, Event.ifclose 1, Event.ifclose 2] [1]) ds = true)
      ∧ (∀ R : List NetDevice, R.Nodup → world_reads = fixed_reads R → ds = R)
      ∧ ∃ rest, [Event.ifopen 2 1, Event.netboot_leave 2, exhausted]
          = (netboot hotplug_down 2 (replay hotplug_down
              [Event.ifclose 1, Event.ifclose 1, Event.netboot_enter 1, Event.ifopen 1 1,
                Event.netboot_leave 1, Event.ifclose 1, Event.ifclose 2] [1])).1
            ++ Event.netboot_leave 2 :: rest
          ∧ ∀ e ∈ (netboot hotplug_down 2 (replay hotplug_down
              [Event.ifclose 1, Event.ifclose 1, Event.netboot_enter 1, Event.ifopen 1 1,
                Event.netboot_leave 1, Event.ifclose 1, Event.ifclose 2] [1])).1,
              is_close e = false ∧ is_enter e = false ∧ is_leave e = false)
      ∧ (∀ R : List NetDevice, R.Nodup → R.length ≤ 5 → world_reads = fixed_reads R →
          autoboot_live world_reads hotplug_down none 5 [1]
            = ((autoboot_with hotplug_down R none [1]).1,
               (autoboot_with hotplug_down R none [1]).2, true)) :=
  autoboot_closes_before_each_attempt world_reads hotplug_down none 5 [1] _ 2 _ rfl

end Autoboot
